import Mathlib

/-!
Verification development for the constrained acoustic-levitation optimizer core
(`simulations/constrained_optimizer.py`, `simulations/hardshell_optimizer.py`,
`simulations/phase_optimizer.py`, `simulations/gor_kov_simulation.py`).

The numeric code is embedded shallowly over the real numbers: Python/torch
floating-point arrays become Lean `List ℝ` / pairs of reals, and the arithmetic
is exact real arithmetic (float rounding, NaN and Inf are not modelled).
Randomly generated data (populations, gradient-step outputs) is abstracted as
explicit input sequences to the deterministic per-iteration state updates,
which are translated verbatim from the source.
-/

namespace OpenAcousticLevitation

open Classical

/-- A 3D point in meters, `(x, y, z)`. -/
abbrev Point3 : Type := ℝ × ℝ × ℝ

/-- A 2D emitter position in meters, `(x, y)`. -/
abbrev Point2 : Type := ℝ × ℝ

/-- An emitter configuration: the ordered list of 2D emitter positions. -/
abbrev Config : Type := List Point2

/-- Euclidean distance between 3D points, as computed by
`torch.sqrt(torch.sum((pts - ems)**2, dim=2))` and by
`np.sqrt((x-ex)**2 + (y-ey)**2 + (z-ez)**2)`. -/
noncomputable def dist3 (p e : Point3) : ℝ :=
  Real.sqrt ((p.1 - e.1) ^ 2 + (p.2.1 - e.2.1) ^ 2 + (p.2.2 - e.2.2) ^ 2)

/-- Euclidean distance between 2D points. -/
noncomputable def dist2 (p q : Point2) : ℝ :=
  Real.sqrt ((p.1 - q.1) ^ 2 + (p.2 - q.2) ^ 2)

/-- Physical constants threaded through every potential evaluation.  The source
files fix `pressure_amp = 1000.0`, `particle_density = 84.0`,
`AIR_DENSITY = 1.225`, `SPEED_OF_SOUND = 343.0`, and `wavelength = 343/frequency`;
`particle_radius` is `0.0015` in the optimizers and `0.0135/2` in
`gor_kov_simulation.py`.  Keeping them as parameters lets one embedding cover
every copy of the formula. -/
structure AcousticParams where
  wavelength : ℝ
  pressure_amp : ℝ
  particle_radius : ℝ
  particle_density : ℝ
  air_density : ℝ
  speed_of_sound : ℝ

/-- `k = 2 * pi / wavelength`. -/
noncomputable def wavenumber (P : AcousticParams) : ℝ := 2 * Real.pi / P.wavelength

/-- `V0 = (4/3) * pi * particle_radius**3`. -/
noncomputable def V0 (P : AcousticParams) : ℝ :=
  (4 / 3) * Real.pi * P.particle_radius ^ 3

/-- `f1 = 1 - (AIR_DENSITY / PARTICLE_DENSITY)`. -/
noncomputable def f1 (P : AcousticParams) : ℝ := 1 - P.air_density / P.particle_density

/-- `f2 = 2 * (PARTICLE_DENSITY - AIR_DENSITY) / (2 * PARTICLE_DENSITY + AIR_DENSITY)`:
computed by `gor_kov_potential` in `gor_kov_simulation.py` but never used in the
returned value (the monopole/pressure-only term is what every evaluator implements). -/
noncomputable def f2 (P : AcousticParams) : ℝ :=
  2 * (P.particle_density - P.air_density) / (2 * P.particle_density + P.air_density)

/-- Emitter-to-point distance with the singularity floor:
`torch.clamp(r, min=1e-6)` in the optimizers, `if r < 1e-6: r = 1e-6` in
`gor_kov_simulation.py` (both equal `max r 1e-6`). -/
noncomputable def clamped_r (pt e : Point3) : ℝ := max (dist3 pt e) 1e-6

/-- `p_total_real = sum_i (pressure_amp / r_i) * cos(k * r_i + phase_i)`, the real
part of the summed complex pressure as computed in
`phase_optimizer._calculate_potential` (the position optimizers are the
`phases = 0` special case). -/
noncomputable def p_total_real (P : AcousticParams) (emitters : List Point3)
    (phases : List ℝ) (pt : Point3) : ℝ :=
  ((emitters.zip phases).map fun ep =>
    (P.pressure_amp / clamped_r pt ep.1) *
      Real.cos (wavenumber P * clamped_r pt ep.1 + ep.2)).sum

/-- `p_total_imag = sum_i (pressure_amp / r_i) * sin(k * r_i + phase_i)`. -/
noncomputable def p_total_imag (P : AcousticParams) (emitters : List Point3)
    (phases : List ℝ) (pt : Point3) : ℝ :=
  ((emitters.zip phases).map fun ep =>
    (P.pressure_amp / clamped_r pt ep.1) *
      Real.sin (wavenumber P * clamped_r pt ep.1 + ep.2)).sum

/-- The Gor'kov potential exactly as the torch optimizers compute it
(`_calculate_potential` in `phase_optimizer.py`, with
`constrained_optimizer.py` / `hardshell_optimizer.py` the all-zero-phase case):
`U = -V0 * (f1 / (2 * AIR_DENSITY * SPEED_OF_SOUND**2)) * (p_total_real**2 + p_total_imag**2)`. -/
noncomputable def calculate_potential (P : AcousticParams) (emitters : List Point3)
    (phases : List ℝ) (pt : Point3) : ℝ :=
  -(V0 P) * (f1 P / (2 * P.air_density * P.speed_of_sound ^ 2)) *
    ((p_total_real P emitters phases pt) ^ 2 + (p_total_imag P emitters phases pt) ^ 2)

/-- `acoustic_pressure_field` from `gor_kov_simulation.py`:
`p_total = sum_i (SOUND_PRESSURE_AMPLITUDE / r_i) * exp(1j * (k * r_i + phase_i))`,
with `r_i` floored at `1e-6`. -/
noncomputable def acoustic_pressure_field (P : AcousticParams) (emitters : List Point3)
    (phases : List ℝ) (pt : Point3) : ℂ :=
  ((emitters.zip phases).map fun ep =>
    ((P.pressure_amp / clamped_r pt ep.1 : ℝ) : ℂ) *
      Complex.exp (Complex.I * ((wavenumber P * clamped_r pt ep.1 + ep.2 : ℝ) : ℂ))).sum

/-- `gor_kov_potential` from `gor_kov_simulation.py`:
`U = -V0 * (f1 / (2 * AIR_DENSITY * SPEED_OF_SOUND**2)) * np.abs(p_complex)**2`.
This is also, word for word, the formula the specification prescribes for the
potential evaluator; `f2` does not occur in it. -/
noncomputable def gor_kov_potential (P : AcousticParams) (emitters : List Point3)
    (phases : List ℝ) (pt : Point3) : ℝ :=
  -(V0 P) * (f1 P / (2 * P.air_density * P.speed_of_sound ^ 2)) *
    (Complex.abs (acoustic_pressure_field P emitters phases pt)) ^ 2

/-- The concrete constants used by `constrained_optimizer.py` /
`phase_optimizer.py` / `hardshell_optimizer.py`: `pressure_amp = 1000.0`,
`particle_radius = 0.0015`, `particle_density = 84.0`, `AIR_DENSITY = 1.225`,
`SPEED_OF_SOUND = 343.0`, `wavelength = 343.0 / frequency`. -/
noncomputable def optimizer_params (frequency : ℝ) : AcousticParams :=
  { wavelength := 343 / frequency
    pressure_amp := 1000
    particle_radius := 0.0015
    particle_density := 84
    air_density := 1.225
    speed_of_sound := 343 }

/-- Closed-form finite bound on the magnitude of the potential for `n` emitters:
the distance floor caps each emitter's pressure contribution at
`pressure_amp / 1e-6`. -/
noncomputable def potential_bound (n : ℕ) : ℝ :=
  (4 / 3) * Real.pi * 0.0015 ^ 3 * ((1 - 1.225 / 84) / (2 * 1.225 * 343 ^ 2)) *
    (2 * ((n : ℝ) * (1000 / 1e-6)) ^ 2)

/-! ### Constraint engine (`constrained_optimizer.py`, `hardshell_optimizer.py`) -/

/-- `MIN_SPACING = 0.005` in `constrained_optimizer.py`. -/
def MIN_SPACING : ℝ := 0.005

/-- `MAX_SPREAD = 0.060` in `constrained_optimizer.py`. -/
def MAX_SPREAD : ℝ := 0.060

/-- `CONSTRAINT_PENALTY = 1e6`. -/
def CONSTRAINT_PENALTY : ℝ := 1e6

/-- `MIN_SPACING = 0.012` in `hardshell_optimizer.py` (hard-shell spacing). -/
def HS_MIN_SPACING : ℝ := 0.012

/-- `MAX_PERTURBATION = 0.005` in `hardshell_optimizer.py`. -/
def HS_MAX_PERTURBATION : ℝ := 0.005

/-- The index pairs visited by `for i in range(n): for j in range(i+1, n)`. -/
def pair_indices (n : ℕ) : List (ℕ × ℕ) :=
  (List.range n).flatMap fun i => ((List.range n).drop (i + 1)).map fun j => (i, j)

/-- Maximum of a tensor of reals (`.max()`), with `0` for the empty list, which
the source never hits (`n_emitters ≥ 1`). -/
noncomputable def listMax : List ℝ → ℝ
  | [] => 0
  | x :: l => l.foldl max x

/-- Minimum of a tensor of reals (`.min()`), with `0` for the empty list. -/
noncomputable def listMin : List ℝ → ℝ
  | [] => 0
  | x :: l => l.foldl min x

/-- `distances_from_center = torch.sqrt(torch.sum(pos**2, dim=1))`. -/
noncomputable def distances_from_center (ps : Config) : List ℝ :=
  ps.map fun p => dist2 p (0, 0)

/-- The pairwise minimum-spacing penalty accumulated by `check_constraints`:
for each unordered pair at distance `< MIN_SPACING`, add
`CONSTRAINT_PENALTY * (MIN_SPACING - dist)`. -/
noncomputable def spacing_penalty (ps : Config) : ℝ :=
  ((pair_indices ps.length).map fun ij =>
    if dist2 (ps.getD ij.1 (0, 0)) (ps.getD ij.2 (0, 0)) < MIN_SPACING then
      CONSTRAINT_PENALTY *
        (MIN_SPACING - dist2 (ps.getD ij.1 (0, 0)) (ps.getD ij.2 (0, 0)))
    else 0).sum

/-- The maximum-spread penalty accumulated by `check_constraints`:
if `max_dist > MAX_SPREAD`, add `CONSTRAINT_PENALTY * (max_dist - MAX_SPREAD)`. -/
noncomputable def spread_penalty (ps : Config) : ℝ :=
  if listMax (distances_from_center ps) > MAX_SPREAD then
    CONSTRAINT_PENALTY * (listMax (distances_from_center ps) - MAX_SPREAD)
  else 0

/-- `total_penalty[b]` of `check_constraints` for one configuration `b`. -/
noncomputable def config_penalty (ps : Config) : ℝ :=
  spacing_penalty ps + spread_penalty ps

/-- The penalty vector a batched `check_constraints` call returns (the per-`b`
loop accumulates each configuration's penalty independently). -/
noncomputable def check_constraints_penalties (batch : List Config) : List ℝ :=
  batch.map config_penalty

/-- The single validity flag `check_constraints` returns:
`valid = (total_penalty == 0).all()` — one boolean for the whole batch. -/
def check_constraints_valid (batch : List Config) : Prop :=
  ∀ p ∈ check_constraints_penalties batch, p = 0

/-! ### Repair / projection (`_repair_geometry`, hard-shell push-apart loop) -/

/-- One pair visit of the repair loop: if the pair is closer than `M`, push both
emitters apart by half the violation along the (regularized) connecting line:
`direction = (pos[i] - pos[j]) / (dist + 1e-6)`, `push = (M - dist) / 2`,
`pos[i] += direction * push`, `pos[j] -= direction * push`; records that a move
happened.  The state is the current position array together with the
moved-this-pass flag. -/
noncomputable def push_pair (M : ℝ) (st : Config × Bool) (ij : ℕ × ℕ) :
    Config × Bool :=
  let ps := st.1
  let p := ps.getD ij.1 (0, 0)
  let q := ps.getD ij.2 (0, 0)
  let d := dist2 p q
  if d < M then
    let dx := (p.1 - q.1) / (d + 1e-6) * ((M - d) / 2)
    let dy := (p.2 - q.2) / (d + 1e-6) * ((M - d) / 2)
    ((ps.set ij.1 (p.1 + dx, p.2 + dy)).set ij.2 (q.1 - dx, q.2 - dy), true)
  else (ps, st.2)

/-- One full pass of the repair loop over all pairs `i < j`, in source order,
with in-place updates (later pairs see earlier pushes). -/
noncomputable def repair_pass (M : ℝ) (ps : Config) : Config × Bool :=
  (pair_indices ps.length).foldl (push_pair M) (ps, false)

/-- The bounded-pass spacing repair: run passes until one makes no move or the
pass budget is exhausted (`range(10)` in `_repair_geometry`, `range(5)` in the
hard-shell projection). -/
noncomputable def repair_passes (M : ℝ) : ℕ → Config → Config
  | 0, ps => ps
  | fuel + 1, ps =>
    let r := repair_pass M ps
    if r.2 then repair_passes M fuel r.1 else r.1

/-- `_repair_geometry` from `constrained_optimizer.py`: up to 10 spacing passes
with `MIN_SPACING`, then if `distances.max() > MAX_SPREAD` rescale every
position by `MAX_SPREAD / distances.max()`. -/
noncomputable def repair_geometry (ps : Config) : Config :=
  let ps2 := repair_passes MIN_SPACING 10 ps
  let m := listMax (distances_from_center ps2)
  if m > MAX_SPREAD then
    ps2.map fun p => (p.1 * (MAX_SPREAD / m), p.2 * (MAX_SPREAD / m))
  else ps2

/-- The hard-shell push-apart projection from `optimize_from_fol`
(`hardshell_optimizer.py`, the `for _ in range(5)` loop with
`MIN_SPACING = 0.012`); it has no rescale step. -/
noncomputable def hardshell_repair (ps : Config) : Config :=
  repair_passes HS_MIN_SPACING 5 ps

/-! ### Objective and batched fitness (`calculate_well_depth_batch`) -/

/-- `torch.linspace(-0.04, 0.04, 50)` entry `i`. -/
noncomputable def grid_coord (i : ℕ) : ℝ := -0.04 + (i : ℝ) * (0.08 / 49)

/-- The flattened 50×50 evaluation grid at `z = 5 mm` used by
`calculate_well_depth_batch` (row-major `meshgrid(..., indexing='ij')`). -/
noncomputable def grid_points : List Point3 :=
  (List.range 50).flatMap fun i =>
    (List.range 50).map fun j => (grid_coord i, grid_coord j, 0.005)

/-- `emitters_3d = torch.cat([emitters, zeros], dim=1)`: lift 2D emitters to
`z = 0`. -/
def to3d (ps : Config) : List Point3 := ps.map fun p => (p.1, p.2, 0)

/-- The potential evaluated over the whole grid for one configuration
(the position optimizers pass no phases, i.e. all-zero phases). -/
noncomputable def potential_on_grid (freq : ℝ) (c : Config) : List ℝ :=
  grid_points.map fun pt =>
    calculate_potential (optimizer_params freq) (to3d c) (List.replicate c.length 0) pt

/-- `well_depth = (U.max() - U.min()).item()` for one configuration. -/
noncomputable def well_depth (freq : ℝ) (c : Config) : ℝ :=
  listMax (potential_on_grid freq c) - listMin (potential_on_grid freq c)

/-- `calculate_well_depth_batch`: per-configuration well depths (computed one
`b` at a time in the source loop) minus the batched constraint penalties. -/
noncomputable def calculate_well_depth_batch (freq : ℝ) (batch : List Config) : List ℝ :=
  List.zipWith (fun w p => w - p) (batch.map (well_depth freq))
    (check_constraints_penalties batch)

/-! ### Evolutionary driver (`run_constrained_evolutionary`).
The populations themselves evolve through RNG-driven crossover/mutation; they
enter the embedding as an explicit per-generation input sequence, and the
deterministic bookkeeping (fitness evaluation, validity masking, elite
selection, best-ever tracking, history append) is translated from the source. -/

/-- Validity of one configuration, as a single-configuration `check_constraints`
call reports it: `valid = (total_penalty == 0)`. -/
def config_valid (c : Config) : Prop := config_penalty c = 0

/-- `valid_mask.sum()`: how many individuals of the population are valid. -/
noncomputable def valid_count (pop : List Config) : ℕ :=
  ((List.range pop.length).filter fun i => decide (config_valid (pop.getD i []))).length

/-- The masked fitness used for selection, paired with its index:
`valid_fitness = fitness.clone(); valid_fitness[~valid_mask] = -1e10`. -/
noncomputable def masked_pairs (freq : ℝ) (pop : List Config) : List (ℕ × ℝ) :=
  (List.range pop.length).map fun i =>
    (i, if config_valid (pop.getD i []) then
          (calculate_well_depth_batch freq pop).getD i 0
        else -1e10)

/-- One argmax round: the first pair with maximal value, and the remaining
pairs. -/
noncomputable def pick_max : (ℕ × ℝ) → List (ℕ × ℝ) → (ℕ × ℝ) × List (ℕ × ℝ)
  | a, [] => (a, [])
  | a, b :: l =>
    if a.2 < b.2 then
      ((pick_max b l).1, a :: (pick_max b l).2)
    else
      ((pick_max a l).1, b :: (pick_max a l).2)

/-- `torch.topk(k).indices`, modelled as `k` rounds of argmax-with-removal (the
same multiset of top values; tie order is the only freedom, and no claim
depends on it). -/
noncomputable def top_k : ℕ → List (ℕ × ℝ) → List ℕ
  | 0, _ => []
  | _ + 1, [] => []
  | k + 1, a :: l =>
    (pick_max a l).1.1 :: top_k k ((pick_max a l).2)

/-- `elite_indices` of one generation: when at least `n_elite = P // 5`
individuals are valid, the top `n_elite` indices of the masked fitness
(`topk`); otherwise all valid indices (`torch.where(valid_mask)[0]`). -/
noncomputable def elite_indices (freq : ℝ) (pop : List Config) : List ℕ :=
  if pop.length / 5 ≤ valid_count pop then
    top_k (pop.length / 5) (masked_pairs freq pop)
  else
    (List.range pop.length).filter fun i => decide (config_valid (pop.getD i []))

/-- `valid_fitness.argmax()` (`best_idx`), as the first maximal masked value. -/
noncomputable def gen_best_idx (freq : ℝ) (pop : List Config) : ℕ :=
  match masked_pairs freq pop with
  | [] => 0
  | a :: l => (pick_max a l).1.1

/-- `fitness[valid_mask].mean()`. -/
noncomputable def mean_valid_fitness (freq : ℝ) (pop : List Config) : ℝ :=
  (((List.range pop.length).filter fun i => decide (config_valid (pop.getD i []))).map
    fun i => (calculate_well_depth_batch freq pop).getD i 0).sum /
  (((List.range pop.length).filter fun i => decide (config_valid (pop.getD i []))).length : ℝ)

/-- One record of `self.history`; the `generation` key equals the record's
position in the history list, and `best_ever` is the best-fitness-so-far
field. -/
structure HistRec where
  best_fitness : ℝ
  mean_fitness : ℝ
  best_ever : ℝ
  valid_count : ℕ

/-- State of `run_constrained_evolutionary` carried across generations. -/
structure EvoState where
  best_ever : ℝ
  history : List HistRec

/-- One generation of `run_constrained_evolutionary`: evaluate the population's
fitness, and if any individual is valid, find the best (masked-argmax)
individual and raise `best_ever` when it is valid and strictly improves it;
then append the generation's record.  (The reproduction that produces the next
population is RNG-driven; the next generation's population arrives as the next
input.) -/
noncomputable def evo_step (freq : ℝ) (s : EvoState) (pop : List Config) : EvoState :=
  if ∃ i < pop.length, config_valid (pop.getD i []) then
    let best_depth := (calculate_well_depth_batch freq pop).getD (gen_best_idx freq pop) 0
    let new_best :=
      if config_valid (pop.getD (gen_best_idx freq pop) []) ∧ s.best_ever < best_depth then
        best_depth
      else s.best_ever
    { best_ever := new_best
      history := s.history ++ [{ best_fitness := best_depth
                                 mean_fitness := mean_valid_fitness freq pop
                                 best_ever := new_best
                                 valid_count := valid_count pop }] }
  else
    { best_ever := s.best_ever
      history := s.history ++ [{ best_fitness := 0
                                 mean_fitness := 0
                                 best_ever := s.best_ever
                                 valid_count := valid_count pop }] }

/-- The evolutionary driver's observable run: fold the per-generation step over
the sequence of populations, starting from the Flower-of-Life baseline
(`best_ever = fol_depth`). -/
noncomputable def run_constrained_evolutionary (freq : ℝ) (init_best : ℝ)
    (pops : List (List Config)) : EvoState :=
  pops.foldl (evo_step freq) { best_ever := init_best, history := [] }

/-! ### Hard-shell gradient-projection driver (`optimize_from_fol`). -/

/-- `check_hard_shell_collision`: a collision is any pair of emitters closer
than the hard-shell `MIN_SPACING = 0.012`. -/
def check_hard_shell_collision (ps : Config) : Prop :=
  ∃ ij ∈ pair_indices ps.length,
    dist2 (ps.getD ij.1 (0, 0)) (ps.getD ij.2 (0, 0)) < HS_MIN_SPACING

/-- `deviations = torch.sqrt(torch.sum((positions - fol_reference)**2, dim=1))`,
maximised over emitters. -/
noncomputable def max_deviation (ps ref : Config) : ℝ :=
  listMax (List.zipWith dist2 ps ref)

/-- `check_perturbation_limit`: `exceeded = max_deviation > MAX_PERTURBATION`. -/
def check_perturbation_limit (ps ref : Config) : Prop :=
  HS_MAX_PERTURBATION < max_deviation ps ref

/-- The best-ever tracking state of `optimize_from_fol`, kept separately from
the currently-optimized (possibly transiently invalid) positions. -/
structure HardShellState where
  best_score : ℝ
  best_positions : Config

/-- One iteration's best-update in `optimize_from_fol`: the candidate produced
by the gradient step and projection (entering here, with its quality score, as
input) replaces the best exactly when it passes the collision check and the
perturbation-limit check and strictly improves the score. -/
noncomputable def hardshell_step (ref : Config) (s : HardShellState)
    (cand : Config × ℝ) : HardShellState :=
  if ¬ check_hard_shell_collision cand.1 ∧ ¬ check_perturbation_limit cand.1 ref ∧
      s.best_score < cand.2 then
    { best_score := cand.2, best_positions := cand.1 }
  else s

/-- `optimize_from_fol`'s best tracking across iterations, initialized to the
reference geometry and its score. -/
noncomputable def optimize_from_fol (ref : Config) (init_score : ℝ)
    (cands : List (Config × ℝ)) : HardShellState :=
  cands.foldl (hardshell_step ref) { best_score := init_score, best_positions := ref }

end OpenAcousticLevitation

namespace OpenAcousticLevitation

open Classical

/-! ### Helper lemmas -/

theorem re_list_sum (l : List ℂ) : l.sum.re = (l.map Complex.re).sum := by
  induction l with
  | nil => simp
  | cons a t ih => simp [ih]

theorem im_list_sum (l : List ℂ) : l.sum.im = (l.map Complex.im).sum := by
  induction l with
  | nil => simp
  | cons a t ih => simp [ih]

theorem ofReal_mul_exp_I_re (a t : ℝ) :
    ((a : ℂ) * Complex.exp (Complex.I * (t : ℂ))).re = a * Real.cos t := by
  rw [mul_comm Complex.I, Complex.exp_mul_I]
  simp [Complex.mul_re, Complex.add_re, Complex.add_im, Complex.mul_im,
    Complex.cos_ofReal_re, Complex.sin_ofReal_re]

theorem ofReal_mul_exp_I_im (a t : ℝ) :
    ((a : ℂ) * Complex.exp (Complex.I * (t : ℂ))).im = a * Real.sin t := by
  rw [mul_comm Complex.I, Complex.exp_mul_I]
  simp [Complex.mul_re, Complex.add_re, Complex.add_im, Complex.mul_im,
    Complex.cos_ofReal_re, Complex.sin_ofReal_re]

theorem acoustic_pressure_field_re (P : AcousticParams) (emitters : List Point3)
    (phases : List ℝ) (pt : Point3) :
    (acoustic_pressure_field P emitters phases pt).re = p_total_real P emitters phases pt := by
  unfold acoustic_pressure_field p_total_real
  rw [re_list_sum, List.map_map]
  exact congrArg List.sum (congrArg (fun f => List.map f (emitters.zip phases))
    (funext fun ep => ofReal_mul_exp_I_re _ _))

theorem acoustic_pressure_field_im (P : AcousticParams) (emitters : List Point3)
    (phases : List ℝ) (pt : Point3) :
    (acoustic_pressure_field P emitters phases pt).im = p_total_imag P emitters phases pt := by
  unfold acoustic_pressure_field p_total_imag
  rw [im_list_sum, List.map_map]
  exact congrArg List.sum (congrArg (fun f => List.map f (emitters.zip phases))
    (funext fun ep => ofReal_mul_exp_I_im _ _))

/-- C1: for every parameter set, emitter array, phase array and evaluation point,
the torch-side potential evaluator (real/imaginary cosine-sine sums) returns
exactly `U = -V0 * (f1 / (2*rho_air*c^2)) * |sum_i (amp / r_i) * exp(i*(k*r_i + phase_i))|^2`
with `r_i` clamped below at `1e-6`, `k = 2*pi/wavelength`, `V0 = (4/3)*pi*radius^3`
and `f1 = 1 - rho_air/particle_density` — the same value `gor_kov_potential`
computes; no `f2`/velocity term occurs in either value. -/
theorem potential_evaluator_is_monopole_gorkov (P : AcousticParams)
    (emitters : List Point3) (phases : List ℝ) (pt : Point3) :
    calculate_potential P emitters phases pt =
      -(V0 P) * (f1 P / (2 * P.air_density * P.speed_of_sound ^ 2)) *
        (Complex.abs (acoustic_pressure_field P emitters phases pt)) ^ 2 ∧
    calculate_potential P emitters phases pt = gor_kov_potential P emitters phases pt := by
  have h : calculate_potential P emitters phases pt =
      -(V0 P) * (f1 P / (2 * P.air_density * P.speed_of_sound ^ 2)) *
        (Complex.abs (acoustic_pressure_field P emitters phases pt)) ^ 2 := by
    unfold calculate_potential
    rw [Complex.sq_abs, Complex.normSq_apply,
      acoustic_pressure_field_re, acoustic_pressure_field_im]
    ring
  exact ⟨h, h⟩

theorem list_sum_abs_le (l : List ℝ) (B : ℝ) (h : ∀ x ∈ l, |x| ≤ B) :
    |l.sum| ≤ l.length * B := by
  induction l with
  | nil => simp
  | cons a t ih =>
    simp only [List.sum_cons, List.length_cons]
    have h1 : |a + t.sum| ≤ |a| + |t.sum| := abs_add _ _
    have h2 : |t.sum| ≤ t.length * B := ih fun x hx => h x (by simp [hx])
    have h3 : |a| ≤ B := h a (by simp)
    push_cast
    nlinarith

theorem amp_term_bound (r c : ℝ) (hr : 1e-6 ≤ r) (hc : |c| ≤ 1) :
    |1000 / r * c| ≤ 1000 / 1e-6 := by
  have hrpos : (0 : ℝ) < r := lt_of_lt_of_le (by norm_num) hr
  have h1 : |1000 / r * c| = 1000 / r * |c| := by
    rw [abs_mul, abs_of_nonneg (by positivity : (0:ℝ) ≤ 1000 / r)]
  rw [h1]
  have h2 : 1000 / r * |c| ≤ 1000 / r * 1 :=
    mul_le_mul_of_nonneg_left hc (by positivity)
  have h3 : 1000 / r ≤ 1000 / 1e-6 := by
    apply div_le_div_of_nonneg_left (by norm_num) (by norm_num) hr
  linarith

theorem p_total_real_bound (freq : ℝ) (emitters : List Point3) (phases : List ℝ)
    (pt : Point3) :
    |p_total_real (optimizer_params freq) emitters phases pt| ≤
      (emitters.length : ℝ) * (1000 / 1e-6) := by
  unfold p_total_real
  have h := list_sum_abs_le
    (((emitters.zip phases)).map fun ep =>
      ((optimizer_params freq).pressure_amp / clamped_r pt ep.1) *
        Real.cos (wavenumber (optimizer_params freq) * clamped_r pt ep.1 + ep.2))
    (1000 / 1e-6) ?_
  · refine le_trans h ?_
    have hlen : (((emitters.zip phases)).length : ℝ) ≤ (emitters.length : ℝ) :=
      Nat.cast_le.mpr (by rw [List.length_zip]; exact Nat.min_le_left _ _)
    simp only [List.length_map]
    exact mul_le_mul_of_nonneg_right hlen (by norm_num)
  · intro x hx
    obtain ⟨ep, _, hep⟩ := List.mem_map.mp hx
    rw [← hep]
    exact amp_term_bound _ _ (le_max_right _ _) (Real.abs_cos_le_one _)

theorem p_total_imag_bound (freq : ℝ) (emitters : List Point3) (phases : List ℝ)
    (pt : Point3) :
    |p_total_imag (optimizer_params freq) emitters phases pt| ≤
      (emitters.length : ℝ) * (1000 / 1e-6) := by
  unfold p_total_imag
  have h := list_sum_abs_le
    (((emitters.zip phases)).map fun ep =>
      ((optimizer_params freq).pressure_amp / clamped_r pt ep.1) *
        Real.sin (wavenumber (optimizer_params freq) * clamped_r pt ep.1 + ep.2))
    (1000 / 1e-6) ?_
  · refine le_trans h ?_
    have hlen : (((emitters.zip phases)).length : ℝ) ≤ (emitters.length : ℝ) :=
      Nat.cast_le.mpr (by rw [List.length_zip]; exact Nat.min_le_left _ _)
    simp only [List.length_map]
    exact mul_le_mul_of_nonneg_right hlen (by norm_num)
  · intro x hx
    obtain ⟨ep, _, hep⟩ := List.mem_map.mp hx
    rw [← hep]
    exact amp_term_bound _ _ (le_max_right _ _) (Real.abs_sin_le_one _)

/-- C8: for every frequency, emitter list (duplicates and coincidences included),
phase list and evaluation point — in particular a point exactly at an emitter —
every clamped distance is at least `1e-6`, so each division is by a positive
number, and the potential is bounded in magnitude by the explicit finite value
`potential_bound n`.  (Float NaN/Inf and exceptions have no counterpart in the
real-number embedding; this is their mathematical content.) -/
theorem distance_floor_safety (freq : ℝ) (emitters : List Point3) (phases : List ℝ)
    (pt : Point3) :
    (∀ e ∈ emitters, 1e-6 ≤ clamped_r pt e) ∧
    |calculate_potential (optimizer_params freq) emitters phases pt| ≤
      potential_bound emitters.length := by
  constructor
  · intro e _
    exact le_max_right _ _
  · have hre := p_total_real_bound freq emitters phases pt
    have him := p_total_imag_bound freq emitters phases pt
    set re := p_total_real (optimizer_params freq) emitters phases pt with hre_def
    set im := p_total_imag (optimizer_params freq) emitters phases pt with him_def
    set B : ℝ := (emitters.length : ℝ) * (1000 / 1e-6) with hB_def
    have hB : 0 ≤ B := by positivity
    have hre2 : re ^ 2 ≤ B ^ 2 := by
      rw [← sq_abs re]
      exact pow_le_pow_left₀ (abs_nonneg _) hre 2
    have him2 : im ^ 2 ≤ B ^ 2 := by
      rw [← sq_abs im]
      exact pow_le_pow_left₀ (abs_nonneg _) him 2
    have hs : re ^ 2 + im ^ 2 ≤ 2 * B ^ 2 := by linarith
    have hπ : (0 : ℝ) < Real.pi := Real.pi_pos
    have hC : (0 : ℝ) ≤ V0 (optimizer_params freq) *
        (f1 (optimizer_params freq) /
          (2 * (optimizer_params freq).air_density *
            (optimizer_params freq).speed_of_sound ^ 2)) := by
      simp only [V0, f1, optimizer_params]
      have h1 : (0:ℝ) ≤ (4 / 3) * Real.pi * 0.0015 ^ 3 := by positivity
      have h2 : (0:ℝ) ≤ (1 - 1.225 / 84) / (2 * 1.225 * 343 ^ 2) := by norm_num
      exact mul_nonneg h1 h2
    have habs : |calculate_potential (optimizer_params freq) emitters phases pt| =
        V0 (optimizer_params freq) *
          (f1 (optimizer_params freq) /
            (2 * (optimizer_params freq).air_density *
              (optimizer_params freq).speed_of_sound ^ 2)) * (re ^ 2 + im ^ 2) := by
      unfold calculate_potential
      rw [← hre_def, ← him_def]
      have hsq : (0:ℝ) ≤ re ^ 2 + im ^ 2 := by positivity
      rw [neg_mul, neg_mul, abs_neg, abs_of_nonneg (mul_nonneg hC hsq)]
    rw [habs]
    have hfin := mul_le_mul_of_nonneg_left hs hC
    refine le_trans hfin (le_of_eq ?_)
    simp only [potential_bound, V0, f1, optimizer_params, hB_def]

/-! ### Constraint-engine lemmas (C2) -/

theorem list_sum_eq_zero_iff_of_nonneg (l : List ℝ) (h : ∀ x ∈ l, 0 ≤ x) :
    l.sum = 0 ↔ ∀ x ∈ l, x = 0 := by
  induction l with
  | nil => simp
  | cons a t ih =>
    have ha := h a (by simp)
    have ht : ∀ x ∈ t, 0 ≤ x := fun x hx => h x (by simp [hx])
    have hts : 0 ≤ t.sum := List.sum_nonneg ht
    simp only [List.sum_cons, List.mem_cons]
    constructor
    · intro h0
      have ha0 : a = 0 := by linarith
      have ht0 : t.sum = 0 := by linarith
      intro x hx
      rcases hx with rfl | hx
      · exact ha0
      · exact (ih ht).mp ht0 x hx
    · intro hall
      have ha0 : a = 0 := hall a (Or.inl rfl)
      have ht0 : t.sum = 0 := (ih ht).mpr fun x hx => hall x (Or.inr hx)
      rw [ha0, ht0, add_zero]

theorem spacing_term_nonneg (ps : Config) (ij : ℕ × ℕ) :
    (0:ℝ) ≤ if dist2 (ps.getD ij.1 (0, 0)) (ps.getD ij.2 (0, 0)) < MIN_SPACING then
      CONSTRAINT_PENALTY *
        (MIN_SPACING - dist2 (ps.getD ij.1 (0, 0)) (ps.getD ij.2 (0, 0)))
    else 0 := by
  by_cases h : dist2 (ps.getD ij.1 (0, 0)) (ps.getD ij.2 (0, 0)) < MIN_SPACING
  · rw [if_pos h]
    have : (0:ℝ) < MIN_SPACING - dist2 (ps.getD ij.1 (0, 0)) (ps.getD ij.2 (0, 0)) := by
      linarith
    unfold CONSTRAINT_PENALTY
    nlinarith
  · rw [if_neg h]

theorem spacing_penalty_nonneg (ps : Config) : 0 ≤ spacing_penalty ps := by
  apply List.sum_nonneg
  intro x hx
  obtain ⟨ij, _, rfl⟩ := List.mem_map.mp hx
  exact spacing_term_nonneg ps ij

theorem spread_penalty_nonneg (ps : Config) : 0 ≤ spread_penalty ps := by
  unfold spread_penalty
  by_cases h : listMax (distances_from_center ps) > MAX_SPREAD
  · rw [if_pos h]
    have : (0:ℝ) < listMax (distances_from_center ps) - MAX_SPREAD := by linarith
    unfold CONSTRAINT_PENALTY
    nlinarith
  · rw [if_neg h]

theorem spacing_penalty_eq_zero_iff (ps : Config) :
    spacing_penalty ps = 0 ↔
      ∀ ij ∈ pair_indices ps.length,
        MIN_SPACING ≤ dist2 (ps.getD ij.1 (0, 0)) (ps.getD ij.2 (0, 0)) := by
  unfold spacing_penalty
  rw [list_sum_eq_zero_iff_of_nonneg _ (fun x hx => by
    obtain ⟨ij, _, rfl⟩ := List.mem_map.mp hx
    exact spacing_term_nonneg ps ij)]
  constructor
  · intro h ij hij
    have := h _ (List.mem_map_of_mem _ hij)
    by_contra hlt
    push_neg at hlt
    rw [if_pos hlt] at this
    have hpos : (0:ℝ) < MIN_SPACING - dist2 (ps.getD ij.1 (0, 0)) (ps.getD ij.2 (0, 0)) := by
      linarith
    unfold CONSTRAINT_PENALTY at this
    nlinarith
  · intro h x hx
    obtain ⟨ij, hij, rfl⟩ := List.mem_map.mp hx
    rw [if_neg (not_lt.mpr (h ij hij))]

theorem spread_penalty_eq_zero_iff (ps : Config) :
    spread_penalty ps = 0 ↔ listMax (distances_from_center ps) ≤ MAX_SPREAD := by
  unfold spread_penalty
  by_cases h : listMax (distances_from_center ps) > MAX_SPREAD
  · rw [if_pos h]
    constructor
    · intro h0
      have hpos : (0:ℝ) < listMax (distances_from_center ps) - MAX_SPREAD := by linarith
      unfold CONSTRAINT_PENALTY at h0
      nlinarith
    · intro hle
      exact absurd h (not_lt.mpr hle)
  · rw [if_neg h]
    exact ⟨fun _ => not_lt.mp h, fun _ => rfl⟩

theorem config_penalty_nonneg (ps : Config) : 0 ≤ config_penalty ps :=
  add_nonneg (spacing_penalty_nonneg ps) (spread_penalty_nonneg ps)

theorem config_penalty_eq_zero_iff (ps : Config) :
    config_penalty ps = 0 ↔
      ((∀ ij ∈ pair_indices ps.length,
          MIN_SPACING ≤ dist2 (ps.getD ij.1 (0, 0)) (ps.getD ij.2 (0, 0))) ∧
        listMax (distances_from_center ps) ≤ MAX_SPREAD) := by
  unfold config_penalty
  rw [add_eq_zero_iff_of_nonneg (spacing_penalty_nonneg ps) (spread_penalty_nonneg ps),
    spacing_penalty_eq_zero_iff, spread_penalty_eq_zero_iff]

theorem dist2_eval (x1 y1 x2 y2 d : ℝ) (hd : 0 ≤ d)
    (h : (x1 - x2) ^ 2 + (y1 - y2) ^ 2 = d ^ 2) :
    dist2 (x1, y1) (x2, y2) = d := by
  unfold dist2
  dsimp only
  rw [h]
  exact Real.sqrt_sq hd

theorem dist2_self (p : Point2) : dist2 p p = 0 := by
  unfold dist2
  simp

/-- C2 (amended): for every batch, the single validity flag `check_constraints`
computes is true iff every configuration's own penalty is zero, and a
configuration's penalty is zero exactly when all its pairwise distances are at
least `MIN_SPACING` and its maximum distance from the origin is at most
`MAX_SPREAD`; per-configuration validity is recovered from the returned penalty
vector, not from the flag. -/
theorem check_constraints_valid_iff_zero_penalties (batch : List Config) :
    (check_constraints_valid batch ↔ ∀ c ∈ batch, config_penalty c = 0) ∧
    ∀ c : Config, (config_penalty c = 0 ↔
      ((∀ ij ∈ pair_indices c.length,
          MIN_SPACING ≤ dist2 (c.getD ij.1 (0, 0)) (c.getD ij.2 (0, 0))) ∧
        listMax (distances_from_center c) ≤ MAX_SPREAD)) := by
  constructor
  · constructor
    · intro h c hc
      exact h _ (List.mem_map_of_mem _ hc)
    · intro h p hp
      obtain ⟨c, hc, rfl⟩ := List.mem_map.mp hp
      exact h c hc
  · intro c
    exact config_penalty_eq_zero_iff c

/-- C2 counterexample: in the batch consisting of a valid two-emitter
configuration (distance 10 mm) and an invalid one (two coincident emitters),
the first configuration's own penalty is `0`, yet the one validity value
`check_constraints` returns for the batch is false — the flag is batch-global
(`(total_penalty == 0).all()`), not a per-configuration indicator. -/
theorem check_constraints_validity_not_per_config :
    config_penalty [((0:ℝ), (0:ℝ)), ((0.01:ℝ), (0:ℝ))] = 0 ∧
    ¬ check_constraints_valid
        [[((0:ℝ), (0:ℝ)), ((0.01:ℝ), (0:ℝ))], [((0:ℝ), (0:ℝ)), ((0:ℝ), (0:ℝ))]] := by
  have hpair : pair_indices 2 = [(0, 1)] := rfl
  have hgood : config_penalty [((0:ℝ), (0:ℝ)), ((0.01:ℝ), (0:ℝ))] = 0 := by
    rw [config_penalty_eq_zero_iff]
    constructor
    · intro ij hij
      simp only [List.length_cons, List.length_nil, hpair, List.mem_singleton] at hij
      subst hij
      have : dist2 (((0:ℝ), (0:ℝ))) (((0.01:ℝ), (0:ℝ))) = 0.01 :=
        dist2_eval 0 0 0.01 0 0.01 (by norm_num) (by norm_num)
      simp only [List.getD_cons_zero, List.getD_cons_succ]
      rw [this]
      unfold MIN_SPACING
      norm_num
    · have h0 : dist2 (((0:ℝ), (0:ℝ))) (((0:ℝ), (0:ℝ))) = 0 := dist2_self _
      have h1 : dist2 (((0.01:ℝ), (0:ℝ))) (((0:ℝ), (0:ℝ))) = 0.01 :=
        dist2_eval 0.01 0 0 0 0.01 (by norm_num) (by norm_num)
      unfold distances_from_center listMax
      simp only [List.map_cons, List.map_nil, h0, h1, List.foldl]
      unfold MAX_SPREAD
      rw [max_eq_right (by norm_num : (0:ℝ) ≤ 0.01)]
      norm_num
  refine ⟨hgood, fun hvalid => ?_⟩
  have hbad : config_penalty [((0:ℝ), (0:ℝ)), ((0:ℝ), (0:ℝ))] = 0 := by
    apply hvalid
    unfold check_constraints_penalties
    simp
  rw [config_penalty_eq_zero_iff] at hbad
  have := hbad.1 (0, 1) (by rw [List.length_cons, List.length_cons, List.length_nil, hpair]; simp)
  simp only [List.getD_cons_zero, List.getD_cons_succ] at this
  rw [dist2_self] at this
  unfold MIN_SPACING at this
  norm_num at this

/-! ### Repair lemmas (C3, C9, C10) -/

theorem foldl_push_pair_no_violation (M : ℝ) (ps : Config) (l : List (ℕ × ℕ))
    (h : ∀ ij ∈ l, M ≤ dist2 (ps.getD ij.1 (0, 0)) (ps.getD ij.2 (0, 0))) :
    l.foldl (push_pair M) (ps, false) = (ps, false) := by
  induction l with
  | nil => rfl
  | cons a t ih =>
    have ha := h a (by simp)
    have hstep : push_pair M (ps, false) a = (ps, false) := by
      unfold push_pair
      rw [if_neg (not_lt.mpr ha)]
    rw [List.foldl_cons, hstep]
    exact ih fun ij hij => h ij (by simp [hij])

theorem repair_pass_no_violation (M : ℝ) (ps : Config)
    (h : ∀ ij ∈ pair_indices ps.length,
      M ≤ dist2 (ps.getD ij.1 (0, 0)) (ps.getD ij.2 (0, 0))) :
    repair_pass M ps = (ps, false) := by
  unfold repair_pass
  exact foldl_push_pair_no_violation M ps _ h

theorem repair_passes_no_violation (M : ℝ) (fuel : ℕ) (ps : Config)
    (h : ∀ ij ∈ pair_indices ps.length,
      M ≤ dist2 (ps.getD ij.1 (0, 0)) (ps.getD ij.2 (0, 0))) :
    repair_passes M fuel ps = ps := by
  cases fuel with
  | zero => rfl
  | succ n =>
    show (let r := repair_pass M ps
      if r.2 then repair_passes M n r.1 else r.1) = ps
    rw [repair_pass_no_violation M ps h]
    rfl

theorem repair_geometry_eq_of_valid (ps : Config)
    (hspacing : ∀ ij ∈ pair_indices ps.length,
      MIN_SPACING ≤ dist2 (ps.getD ij.1 (0, 0)) (ps.getD ij.2 (0, 0)))
    (hspread : listMax (distances_from_center ps) ≤ MAX_SPREAD) :
    repair_geometry ps = ps := by
  unfold repair_geometry
  rw [repair_passes_no_violation MIN_SPACING 10 ps hspacing]
  rw [if_neg (not_lt.mpr hspread)]

/-- C9: a configuration that already satisfies every constraint (all pairwise
distances at least `MIN_SPACING` and maximum distance from the origin at most
`MAX_SPREAD`) is returned by `_repair_geometry` completely unchanged: the first
spacing pass makes no move, so the loop breaks immediately, and the rescale
branch is not taken. -/
theorem repair_geometry_idempotent_on_valid (ps : Config)
    (hspacing : ∀ ij ∈ pair_indices ps.length,
      MIN_SPACING ≤ dist2 (ps.getD ij.1 (0, 0)) (ps.getD ij.2 (0, 0)))
    (hspread : listMax (distances_from_center ps) ≤ MAX_SPREAD) :
    repair_geometry ps = ps :=
  repair_geometry_eq_of_valid ps hspacing hspread

theorem good_config_spacing :
    ∀ ij ∈ pair_indices ([((0:ℝ), (0:ℝ)), ((0.01:ℝ), (0:ℝ))] : Config).length,
      MIN_SPACING ≤ dist2 (([((0:ℝ), (0:ℝ)), ((0.01:ℝ), (0:ℝ))] : Config).getD ij.1 (0, 0))
        (([((0:ℝ), (0:ℝ)), ((0.01:ℝ), (0:ℝ))] : Config).getD ij.2 (0, 0)) := by
  intro ij hij
  have hpair : pair_indices ([((0:ℝ), (0:ℝ)), ((0.01:ℝ), (0:ℝ))] : Config).length =
      [(0, 1)] := rfl
  rw [hpair, List.mem_singleton] at hij
  subst hij
  simp only [List.getD_cons_zero, List.getD_cons_succ]
  rw [dist2_eval 0 0 0.01 0 0.01 (by norm_num) (by norm_num)]
  unfold MIN_SPACING
  norm_num

theorem good_config_spread :
    listMax (distances_from_center ([((0:ℝ), (0:ℝ)), ((0.01:ℝ), (0:ℝ))] : Config)) ≤
      MAX_SPREAD := by
  have h0 : dist2 (((0:ℝ), (0:ℝ))) (((0:ℝ), (0:ℝ))) = 0 := dist2_self _
  have h1 : dist2 (((0.01:ℝ), (0:ℝ))) (((0:ℝ), (0:ℝ))) = 0.01 :=
    dist2_eval 0.01 0 0 0 0.01 (by norm_num) (by norm_num)
  unfold distances_from_center listMax
  simp only [List.map_cons, List.map_nil, h0, h1, List.foldl]
  unfold MAX_SPREAD
  rw [max_eq_right (by norm_num : (0:ℝ) ≤ 0.01)]
  norm_num

theorem repair_geometry_idempotent_on_valid_witness :
    ((∀ ij ∈ pair_indices ([((0:ℝ), (0:ℝ)), ((0.01:ℝ), (0:ℝ))] : Config).length,
        MIN_SPACING ≤ dist2 (([((0:ℝ), (0:ℝ)), ((0.01:ℝ), (0:ℝ))] : Config).getD ij.1 (0, 0))
          (([((0:ℝ), (0:ℝ)), ((0.01:ℝ), (0:ℝ))] : Config).getD ij.2 (0, 0))) ∧
      listMax (distances_from_center ([((0:ℝ), (0:ℝ)), ((0.01:ℝ), (0:ℝ))] : Config)) ≤
        MAX_SPREAD) ∧
    repair_geometry [((0:ℝ), (0:ℝ)), ((0.01:ℝ), (0:ℝ))] =
      [((0:ℝ), (0:ℝ)), ((0.01:ℝ), (0:ℝ))] :=
  ⟨⟨good_config_spacing, good_config_spread⟩,
    repair_geometry_idempotent_on_valid _ good_config_spacing good_config_spread⟩

theorem le_foldl_max (l : List ℝ) : ∀ b : ℝ, b ≤ l.foldl max b ∧ ∀ x ∈ l, x ≤ l.foldl max b := by
  induction l with
  | nil => exact fun b => ⟨le_refl b, by simp⟩
  | cons a t ih =>
    intro b
    constructor
    · exact le_trans (le_max_left b a) (ih (max b a)).1
    · intro x hx
      rcases List.mem_cons.mp hx with rfl | hx
      · exact le_trans (le_max_right b x) (ih (max b x)).1
      · exact (ih (max b a)).2 x hx

theorem le_listMax_of_mem (x : ℝ) (l : List ℝ) (h : x ∈ l) : x ≤ listMax l := by
  cases l with
  | nil => cases h
  | cons a t =>
    show x ≤ t.foldl max a
    rcases List.mem_cons.mp h with rfl | hx
    · exact (le_foldl_max t x).1
    · exact (le_foldl_max t a).2 x hx

theorem dist2_scale (x y s : ℝ) (hs : 0 ≤ s) :
    dist2 (x * s, y * s) (0, 0) = dist2 (x, y) (0, 0) * s := by
  unfold dist2
  dsimp only
  have h : (x * s - 0) ^ 2 + (y * s - 0) ^ 2 = ((x - 0) ^ 2 + (y - 0) ^ 2) * s ^ 2 := by
    ring
  rw [h, Real.sqrt_mul (by positivity), Real.sqrt_sq hs]

/-- C10: whatever configuration comes in (repaired or not for spacing), every
position `_repair_geometry` returns lies within `MAX_SPREAD` of the origin: if
the post-pass maximum distance exceeds the bound, the final uniform rescale by
`MAX_SPREAD / max` brings the maximum exactly onto the bound (exactly in real
arithmetic, up to rounding in floats); otherwise positions are already inside. -/
theorem repair_geometry_enforces_max_spread (ps : Config) (q : Point2)
    (hq : q ∈ repair_geometry ps) :
    dist2 q (0, 0) ≤ MAX_SPREAD := by
  unfold repair_geometry at hq
  set ps2 := repair_passes MIN_SPACING 10 ps with hps2
  set m := listMax (distances_from_center ps2) with hm
  by_cases hcase : m > MAX_SPREAD
  · rw [if_pos hcase] at hq
    obtain ⟨p, hp, rfl⟩ := List.mem_map.mp hq
    have hd : dist2 p (0, 0) ≤ m := by
      rw [hm]
      exact le_listMax_of_mem _ _ (List.mem_map_of_mem _ hp)
    have hmpos : (0:ℝ) < m := lt_trans (by unfold MAX_SPREAD; norm_num) hcase
    have hs : (0:ℝ) ≤ MAX_SPREAD / m :=
      div_nonneg (by unfold MAX_SPREAD; norm_num) hmpos.le
    rw [dist2_scale p.1 p.2 (MAX_SPREAD / m) hs]
    calc dist2 (p.1, p.2) (0, 0) * (MAX_SPREAD / m) ≤ m * (MAX_SPREAD / m) :=
          mul_le_mul_of_nonneg_right hd hs
      _ = MAX_SPREAD := by field_simp
  · rw [if_neg hcase] at hq
    have hd : dist2 q (0, 0) ≤ m := by
      rw [hm]
      exact le_listMax_of_mem _ _ (List.mem_map_of_mem _ hq)
    exact le_trans hd (not_lt.mp hcase)

theorem repair_geometry_single_origin :
    repair_geometry [((0:ℝ), (0:ℝ))] = [((0:ℝ), (0:ℝ))] := by
  apply repair_geometry_eq_of_valid
  · intro ij hij
    cases hij
  · have h0 : dist2 (((0:ℝ), (0:ℝ))) (((0:ℝ), (0:ℝ))) = 0 := dist2_self _
    unfold distances_from_center listMax
    simp only [List.map_cons, List.map_nil, h0, List.foldl]
    unfold MAX_SPREAD
    norm_num

theorem repair_geometry_enforces_max_spread_witness :
    (((0:ℝ), (0:ℝ)) ∈ repair_geometry [((0:ℝ), (0:ℝ))]) ∧
    dist2 (((0:ℝ), (0:ℝ))) (0, 0) ≤ MAX_SPREAD := by
  have hmem : ((0:ℝ), (0:ℝ)) ∈ repair_geometry [((0:ℝ), (0:ℝ))] := by
    rw [repair_geometry_single_origin]
    simp
  exact ⟨hmem, repair_geometry_enforces_max_spread _ _ hmem⟩

theorem repair_pass_two (M : ℝ) (p q : Point2) (h : dist2 p q < M) :
    repair_pass M [p, q] =
      ([(p.1 + (p.1 - q.1) / (dist2 p q + 1e-6) * ((M - dist2 p q) / 2),
         p.2 + (p.2 - q.2) / (dist2 p q + 1e-6) * ((M - dist2 p q) / 2)),
        (q.1 - (p.1 - q.1) / (dist2 p q + 1e-6) * ((M - dist2 p q) / 2),
         q.2 - (p.2 - q.2) / (dist2 p q + 1e-6) * ((M - dist2 p q) / 2))], true) := by
  unfold repair_pass
  show List.foldl (push_pair M) ([p, q], false) (pair_indices 2) = _
  rw [show pair_indices 2 = [(0, 1)] from rfl, List.foldl_cons, List.foldl_nil]
  unfold push_pair
  simp only [List.getD_cons_zero, List.getD_cons_succ]
  rw [if_pos h]
  simp [List.set]

theorem dist2_stretch (p q : Point2) (t : ℝ) :
    dist2 (p.1 + (p.1 - q.1) * t, p.2 + (p.2 - q.2) * t)
        (q.1 - (p.1 - q.1) * t, q.2 - (p.2 - q.2) * t) = |1 + 2 * t| * dist2 p q := by
  unfold dist2
  dsimp only
  have h : (p.1 + (p.1 - q.1) * t - (q.1 - (p.1 - q.1) * t)) ^ 2 +
      (p.2 + (p.2 - q.2) * t - (q.2 - (p.2 - q.2) * t)) ^ 2 =
      (1 + 2 * t) ^ 2 * ((p.1 - q.1) ^ 2 + (p.2 - q.2) ^ 2) := by ring
  rw [h, Real.sqrt_mul (sq_nonneg _), Real.sqrt_sq_eq_abs]

/-- C3 (amended): for two emitters at *distinct* points closer than
`MIN_SPACING = 0.012`, one pass of the hard-shell repair pushes them
symmetrically apart to distance `d * (0.012 + 1e-6) / (d + 1e-6)` — in exact
real arithmetic still strictly below `0.012` (within a relative shortfall of
`1e-6 / (d + 1e-6)`, i.e. converging geometrically over passes and rounding to
the bound in float32); exactly coincident emitters are never separated, because
the regularized push direction `(pos_i - pos_j) / (dist + 1e-6)` is the zero
vector (see the counterexample). -/
theorem hardshell_repair_pass_two_body (p q : Point2)
    (h0 : 0 < dist2 p q) (hM : dist2 p q < HS_MIN_SPACING) :
    dist2 ((repair_pass HS_MIN_SPACING [p, q]).1.getD 0 (0, 0))
        ((repair_pass HS_MIN_SPACING [p, q]).1.getD 1 (0, 0)) =
      dist2 p q * ((HS_MIN_SPACING + 1e-6) / (dist2 p q + 1e-6)) ∧
    dist2 ((repair_pass HS_MIN_SPACING [p, q]).1.getD 0 (0, 0))
        ((repair_pass HS_MIN_SPACING [p, q]).1.getD 1 (0, 0)) < HS_MIN_SPACING := by
  set d := dist2 p q with hd
  have hde : (0:ℝ) < d + 1e-6 := by
    have : (0:ℝ) < 1e-6 := by norm_num
    linarith
  have hrw := repair_pass_two HS_MIN_SPACING p q hM
  have heq : dist2 ((repair_pass HS_MIN_SPACING [p, q]).1.getD 0 (0, 0))
      ((repair_pass HS_MIN_SPACING [p, q]).1.getD 1 (0, 0)) =
      d * ((HS_MIN_SPACING + 1e-6) / (d + 1e-6)) := by
    rw [hrw]
    simp only [List.getD_cons_zero, List.getD_cons_succ]
    have hform : ∀ a : ℝ, a / (d + 1e-6) * ((HS_MIN_SPACING - d) / 2) =
        a * ((HS_MIN_SPACING - d) / (2 * (d + 1e-6))) := by
      intro a
      field_simp
      exact Or.inl (by ring)
    rw [hform (p.1 - q.1), hform (p.2 - q.2)]
    rw [dist2_stretch p q ((HS_MIN_SPACING - d) / (2 * (d + 1e-6)))]
    have ht : (0:ℝ) ≤ 1 + 2 * ((HS_MIN_SPACING - d) / (2 * (d + 1e-6))) := by
      have hnum : (0:ℝ) ≤ HS_MIN_SPACING - d := by linarith
      positivity
    rw [abs_of_nonneg ht, ← hd]
    rw [mul_comm]
    congr 1
    field_simp
    ring
  refine ⟨heq, ?_⟩
  rw [heq]
  rw [← mul_div_assoc, div_lt_iff₀ hde]
  have heps : (0:ℝ) < 1e-6 := by norm_num
  nlinarith [mul_pos heps (sub_pos.mpr hM)]

theorem hardshell_repair_pass_two_body_witness :
    (0 < dist2 (((0:ℝ), (0:ℝ))) (((0.006:ℝ), (0:ℝ))) ∧
      dist2 (((0:ℝ), (0:ℝ))) (((0.006:ℝ), (0:ℝ))) < HS_MIN_SPACING) ∧
    dist2 ((repair_pass HS_MIN_SPACING
        [((0:ℝ), (0:ℝ)), ((0.006:ℝ), (0:ℝ))]).1.getD 0 (0, 0))
      ((repair_pass HS_MIN_SPACING
        [((0:ℝ), (0:ℝ)), ((0.006:ℝ), (0:ℝ))]).1.getD 1 (0, 0)) <
      HS_MIN_SPACING := by
  have hdist : dist2 (((0:ℝ), (0:ℝ))) (((0.006:ℝ), (0:ℝ))) = 0.006 :=
    dist2_eval 0 0 0.006 0 0.006 (by norm_num) (by norm_num)
  have h0 : 0 < dist2 (((0:ℝ), (0:ℝ))) (((0.006:ℝ), (0:ℝ))) := by
    rw [hdist]; norm_num
  have hM : dist2 (((0:ℝ), (0:ℝ))) (((0.006:ℝ), (0:ℝ))) < HS_MIN_SPACING := by
    rw [hdist]; unfold HS_MIN_SPACING; norm_num
  exact ⟨⟨h0, hM⟩, (hardshell_repair_pass_two_body _ _ h0 hM).2⟩

theorem hardshell_repair_pass_coincident :
    repair_pass HS_MIN_SPACING [((0:ℝ), (0:ℝ)), ((0:ℝ), (0:ℝ))] =
      ([((0:ℝ), (0:ℝ)), ((0:ℝ), (0:ℝ))], true) := by
  have h : dist2 (((0:ℝ), (0:ℝ))) (((0:ℝ), (0:ℝ))) < HS_MIN_SPACING := by
    rw [dist2_self]
    unfold HS_MIN_SPACING
    norm_num
  rw [repair_pass_two HS_MIN_SPACING _ _ h]
  rw [dist2_self]
  norm_num

theorem repair_passes_coincident (fuel : ℕ) :
    repair_passes HS_MIN_SPACING fuel [((0:ℝ), (0:ℝ)), ((0:ℝ), (0:ℝ))] =
      [((0:ℝ), (0:ℝ)), ((0:ℝ), (0:ℝ))] := by
  induction fuel with
  | zero => rfl
  | succ n ih =>
    show (let r := repair_pass HS_MIN_SPACING [((0:ℝ), (0:ℝ)), ((0:ℝ), (0:ℝ))]
      if r.2 then repair_passes HS_MIN_SPACING n r.1 else r.1) =
      [((0:ℝ), (0:ℝ)), ((0:ℝ), (0:ℝ))]
    rw [hardshell_repair_pass_coincident]
    exact ih

/-- C3 counterexample: two emitters placed exactly at the same point are NOT
separated by the hard-shell repair with `min_spacing = 0.012`: the push
direction `(pos_i - pos_j) / (dist + 1e-6)` is the zero vector, so all five
passes leave both emitters unchanged and the final distance is `0 < 0.012`,
contradicting the claimed one-pass (indeed any-pass) convergence. -/
theorem hardshell_repair_coincident_pair_stays :
    hardshell_repair [((0:ℝ), (0:ℝ)), ((0:ℝ), (0:ℝ))] =
      [((0:ℝ), (0:ℝ)), ((0:ℝ), (0:ℝ))] ∧
    dist2 ((hardshell_repair [((0:ℝ), (0:ℝ)), ((0:ℝ), (0:ℝ))]).getD 0 (0, 0))
        ((hardshell_repair [((0:ℝ), (0:ℝ)), ((0:ℝ), (0:ℝ))]).getD 1 (0, 0)) <
      HS_MIN_SPACING := by
  have h : hardshell_repair [((0:ℝ), (0:ℝ)), ((0:ℝ), (0:ℝ))] =
      [((0:ℝ), (0:ℝ)), ((0:ℝ), (0:ℝ))] := repair_passes_coincident 5
  refine ⟨h, ?_⟩
  rw [h]
  simp only [List.getD_cons_zero, List.getD_cons_succ]
  rw [dist2_self]
  unfold HS_MIN_SPACING
  norm_num

/-! ### Batched/scalar equivalence (C4) -/

theorem zipWith_sub_map (f g : Config → ℝ) (l : List Config) :
    List.zipWith (fun w p => w - p) (l.map f) (l.map g) = l.map fun c => f c - g c := by
  induction l with
  | nil => rfl
  | cons a t ih => simp only [List.map_cons, List.zipWith_cons_cons, ih]

theorem calculate_well_depth_batch_eq_map (freq : ℝ) (batch : List Config) :
    calculate_well_depth_batch freq batch =
      batch.map fun c => well_depth freq c - config_penalty c := by
  unfold calculate_well_depth_batch check_constraints_penalties
  exact zipWith_sub_map _ _ _

/-- C4: the batched fitness evaluator (well depth minus constraint penalty,
computed over a whole population at once) returns, at every batch index, the
exact value an independent single-configuration evaluation of the same field
evaluator and constraint engine produces on that configuration alone — no
configuration's result depends on any other member of the batch. -/
theorem calculate_well_depth_batch_scalar_equiv (freq : ℝ) (batch : List Config)
    (i : ℕ) (h : i < batch.length) :
    (calculate_well_depth_batch freq batch).getD i 0 =
      (calculate_well_depth_batch freq [batch.getD i []]).getD 0 0 := by
  rw [calculate_well_depth_batch_eq_map, calculate_well_depth_batch_eq_map]
  have hlen : i < (batch.map fun c => well_depth freq c - config_penalty c).length := by
    simpa using h
  rw [List.getD_eq_getElem _ _ hlen, List.getElem_map]
  simp only [List.map_cons, List.map_nil, List.getD_cons_zero]
  rw [List.getD_eq_getElem _ _ h]

theorem calculate_well_depth_batch_scalar_equiv_witness :
    (1 < ([[((0:ℝ), (0:ℝ))], [((0.01:ℝ), (0:ℝ))]] : List Config).length) ∧
    (calculate_well_depth_batch 40000
        [[((0:ℝ), (0:ℝ))], [((0.01:ℝ), (0:ℝ))]]).getD 1 0 =
      (calculate_well_depth_batch 40000
        [([[((0:ℝ), (0:ℝ))], [((0.01:ℝ), (0:ℝ))]] : List Config).getD 1 []]).getD 0 0 :=
  ⟨by norm_num, calculate_well_depth_batch_scalar_equiv 40000 _ 1 (by norm_num)⟩

/-! ### Evolutionary driver lemmas (C5, C6) -/

theorem evo_step_history (freq : ℝ) (s : EvoState) (pop : List Config) :
    ∃ r : HistRec, (evo_step freq s pop).history = s.history ++ [r] ∧
      r.best_ever = (evo_step freq s pop).best_ever := by
  unfold evo_step
  by_cases h : ∃ i < pop.length, config_valid (pop.getD i [])
  · rw [if_pos h]
    exact ⟨_, rfl, rfl⟩
  · rw [if_neg h]
    exact ⟨_, rfl, rfl⟩

theorem evo_step_best_mono (freq : ℝ) (s : EvoState) (pop : List Config) :
    s.best_ever ≤ (evo_step freq s pop).best_ever := by
  unfold evo_step
  by_cases h : ∃ i < pop.length, config_valid (pop.getD i [])
  · rw [if_pos h]
    show s.best_ever ≤
      (if config_valid (pop.getD (gen_best_idx freq pop) []) ∧
          s.best_ever < (calculate_well_depth_batch freq pop).getD (gen_best_idx freq pop) 0
        then (calculate_well_depth_batch freq pop).getD (gen_best_idx freq pop) 0
        else s.best_ever)
    by_cases h2 : config_valid (pop.getD (gen_best_idx freq pop) []) ∧
        s.best_ever < (calculate_well_depth_batch freq pop).getD (gen_best_idx freq pop) 0
    · rw [if_pos h2]
      exact le_of_lt h2.2
    · rw [if_neg h2]
  · rw [if_neg h]

theorem foldl_evo_invariant (freq : ℝ) (pops : List (List Config)) (s : EvoState)
    (hs : (∀ r ∈ s.history, r.best_ever ≤ s.best_ever) ∧
      s.history.Pairwise fun r1 r2 => r1.best_ever ≤ r2.best_ever) :
    (∀ r ∈ (pops.foldl (evo_step freq) s).history,
        r.best_ever ≤ (pops.foldl (evo_step freq) s).best_ever) ∧
      (pops.foldl (evo_step freq) s).history.Pairwise
        fun r1 r2 => r1.best_ever ≤ r2.best_ever := by
  induction pops generalizing s with
  | nil => exact hs
  | cons pop t ih =>
    rw [List.foldl_cons]
    apply ih
    obtain ⟨r, hr, hrbest⟩ := evo_step_history freq s pop
    have hmono := evo_step_best_mono freq s pop
    constructor
    · intro x hx
      rw [hr] at hx
      rcases List.mem_append.mp hx with hx | hx
      · exact le_trans (hs.1 x hx) hmono
      · rw [List.mem_singleton] at hx
        subst hx
        exact le_of_eq hrbest
    · rw [hr, List.pairwise_append]
      refine ⟨hs.2, by simp, ?_⟩
      intro x hx y hy
      rw [List.mem_singleton] at hy
      subst hy
      rw [hrbest]
      exact le_trans (hs.1 x hx) hmono

theorem foldl_evo_history_length (freq : ℝ) (pops : List (List Config)) (s : EvoState) :
    (pops.foldl (evo_step freq) s).history.length = s.history.length + pops.length := by
  induction pops generalizing s with
  | nil => simp
  | cons pop t ih =>
    rw [List.foldl_cons, ih]
    obtain ⟨r, hr, _⟩ := evo_step_history freq s pop
    rw [hr, List.length_append]
    simp only [List.length_cons, List.length_nil]
    omega

/-- C5: in the history that `run_constrained_evolutionary` returns, the
best-fitness-so-far field (`best_ever`) is non-decreasing across the generation
index, for every run (any baseline depth and any sequence of per-generation
populations) and every pair of generations `i ≤ j`. -/
theorem evolutionary_best_ever_monotone (freq init_best : ℝ)
    (pops : List (List Config)) (i j : ℕ) (hij : i ≤ j)
    (hj : j < (run_constrained_evolutionary freq init_best pops).history.length) :
    ((run_constrained_evolutionary freq init_best pops).history.getD i
        { best_fitness := 0, mean_fitness := 0, best_ever := 0, valid_count := 0 }).best_ever ≤
      ((run_constrained_evolutionary freq init_best pops).history.getD j
        { best_fitness := 0, mean_fitness := 0, best_ever := 0, valid_count := 0 }).best_ever := by
  unfold run_constrained_evolutionary at hj ⊢
  have hinv := foldl_evo_invariant freq pops { best_ever := init_best, history := [] }
    (by constructor <;> simp)
  rcases Nat.lt_or_ge i j with hlt | hge
  · have hi : i < (pops.foldl (evo_step freq)
        { best_ever := init_best, history := [] }).history.length := lt_trans hlt hj
    rw [List.getD_eq_getElem _ _ hi, List.getD_eq_getElem _ _ hj]
    have hp := List.pairwise_iff_get.mp hinv.2 ⟨i, hi⟩ ⟨j, hj⟩ hlt
    simpa using hp
  · have heq : i = j := le_antisymm hij hge
    subst heq
    exact le_refl _

theorem evolutionary_best_ever_monotone_witness :
    ((0:ℕ) ≤ 0 ∧
      0 < (run_constrained_evolutionary 40000 0 [[]]).history.length) ∧
    ((run_constrained_evolutionary 40000 0 [[]]).history.getD 0
        { best_fitness := 0, mean_fitness := 0, best_ever := 0, valid_count := 0 }).best_ever ≤
      ((run_constrained_evolutionary 40000 0 [[]]).history.getD 0
        { best_fitness := 0, mean_fitness := 0, best_ever := 0, valid_count := 0 }).best_ever := by
  have hlen : (run_constrained_evolutionary 40000 0 [[]]).history.length = 1 := by
    unfold run_constrained_evolutionary
    rw [foldl_evo_history_length]
    rfl
  exact ⟨⟨le_refl 0, by rw [hlen]; norm_num⟩,
    evolutionary_best_ever_monotone 40000 0 [[]] 0 0 (le_refl 0) (by rw [hlen]; norm_num)⟩

theorem pick_max_perm (a : ℕ × ℝ) (l : List (ℕ × ℝ)) :
    ((pick_max a l).1 :: (pick_max a l).2).Perm (a :: l) := by
  induction l generalizing a with
  | nil => simp [pick_max]
  | cons b t ih =>
    unfold pick_max
    by_cases h : a.2 < b.2
    · rw [if_pos h]
      exact List.Perm.trans (List.Perm.swap a _ _) (List.Perm.cons a (ih b))
    · rw [if_neg h]
      exact ((List.Perm.swap b _ _).trans (List.Perm.cons b (ih a))).trans
        (List.Perm.swap a b t)

theorem pick_max_ge (a : ℕ × ℝ) (l : List (ℕ × ℝ)) :
    ∀ x ∈ a :: l, x.2 ≤ (pick_max a l).1.2 := by
  induction l generalizing a with
  | nil =>
    intro x hx
    rw [List.mem_singleton] at hx
    subst hx
    exact le_refl _
  | cons b t ih =>
    intro x hx
    unfold pick_max
    by_cases h : a.2 < b.2
    · rw [if_pos h]
      rcases List.mem_cons.mp hx with rfl | hx2
      · exact le_trans (le_of_lt h) (ih b b (by simp))
      · exact ih b x hx2
    · rw [if_neg h]
      rcases List.mem_cons.mp hx with rfl | hx2
      · exact ih x x (by simp)
      · rcases List.mem_cons.mp hx2 with rfl | hx3
        · exact le_trans (not_lt.mp h) (ih a a (by simp))
        · exact ih a x (by simp [hx3])

theorem top_k_good (k : ℕ) (l : List (ℕ × ℝ))
    (hk : k ≤ (l.filter fun x => decide ((0:ℝ) ≤ x.2)).length) :
    ∀ i ∈ top_k k l, ∃ x, x ∈ l ∧ x.1 = i ∧ (0:ℝ) ≤ x.2 := by
  induction k generalizing l with
  | zero =>
    intro i hi
    cases hi
  | succ n ih =>
    cases l with
    | nil => simp at hk
    | cons a t =>
      intro i hi
      have hperm := pick_max_perm a t
      have hge := pick_max_ge a t
      have hex : ∃ y ∈ a :: t, (0:ℝ) ≤ y.2 := by
        have hlen : 0 < ((a :: t).filter fun x => decide ((0:ℝ) ≤ x.2)).length :=
          lt_of_lt_of_le (Nat.succ_pos n) hk
        obtain ⟨y, hy⟩ := List.exists_mem_of_length_pos hlen
        have hmf := List.mem_filter.mp hy
        exact ⟨y, hmf.1, of_decide_eq_true hmf.2⟩
      obtain ⟨y, hy, hy0⟩ := hex
      have hm0 : (0:ℝ) ≤ (pick_max a t).1.2 := le_trans hy0 (hge y hy)
      rw [show top_k (n + 1) (a :: t) =
        (pick_max a t).1.1 :: top_k n ((pick_max a t).2) from rfl] at hi
      rcases List.mem_cons.mp hi with rfl | hi2
      · exact ⟨(pick_max a t).1, hperm.subset (by simp), rfl, hm0⟩
      · have hflen : ((( pick_max a t).1 :: (pick_max a t).2).filter
            fun x => decide ((0:ℝ) ≤ x.2)).length =
            ((a :: t).filter fun x => decide ((0:ℝ) ≤ x.2)).length :=
          (hperm.filter _).length_eq
        have hcons : (((pick_max a t).1 :: (pick_max a t).2).filter
            fun x => decide ((0:ℝ) ≤ x.2)).length ≤
            1 + (((pick_max a t).2).filter fun x => decide ((0:ℝ) ≤ x.2)).length := by
          rw [List.filter_cons]
          by_cases hc : decide ((0:ℝ) ≤ (pick_max a t).1.2) = true
          · rw [if_pos hc]
            simp only [List.length_cons]
            omega
          · rw [if_neg hc]
            omega
        have hk2 : n ≤ (((pick_max a t).2).filter fun x => decide ((0:ℝ) ≤ x.2)).length := by
          omega
        obtain ⟨x, hxr, hxi, hx0⟩ := ih _ hk2 i hi2
        exact ⟨x, hperm.subset (by simp [hxr]), hxi, hx0⟩

theorem foldl_min_le_init (l : List ℝ) : ∀ b : ℝ, l.foldl min b ≤ b := by
  induction l with
  | nil => intro b; exact le_refl b
  | cons a t ih => intro b; exact le_trans (ih (min b a)) (min_le_left b a)

theorem grid_points_length : grid_points.length = 2500 := by
  unfold grid_points
  rw [List.length_flatMap]
  rw [show (List.length ∘ fun i : ℕ =>
      (List.range 50).map fun j => (grid_coord i, grid_coord j, (0.005:ℝ))) =
      (fun _ : ℕ => (50:ℕ)) from funext fun i => by
    show ((List.range 50).map fun j => (grid_coord i, grid_coord j, (0.005:ℝ))).length = 50
    rw [List.length_map, List.length_range]]
  rw [List.map_const', List.sum_replicate, List.length_range]
  decide

theorem potential_on_grid_ne_nil (freq : ℝ) (c : Config) :
    potential_on_grid freq c ≠ [] := by
  unfold potential_on_grid
  intro h
  have hlen := congrArg List.length h
  rw [List.length_map, grid_points_length] at hlen
  simp at hlen

theorem listMin_le_listMax (l : List ℝ) (h : l ≠ []) : listMin l ≤ listMax l := by
  cases l with
  | nil => exact absurd rfl h
  | cons a t =>
    show t.foldl min a ≤ t.foldl max a
    exact le_trans (foldl_min_le_init t a) (le_foldl_max t a).1

theorem well_depth_nonneg (freq : ℝ) (c : Config) : 0 ≤ well_depth freq c := by
  unfold well_depth
  have h := listMin_le_listMax (potential_on_grid freq c) (potential_on_grid_ne_nil freq c)
  linarith

theorem batch_fitness_of_valid (freq : ℝ) (pop : List Config) (i : ℕ)
    (hi : i < pop.length) (hv : config_valid (pop.getD i [])) :
    (calculate_well_depth_batch freq pop).getD i 0 = well_depth freq (pop.getD i []) := by
  rw [calculate_well_depth_batch_eq_map]
  have hlen : i < (pop.map fun c => well_depth freq c - config_penalty c).length := by
    simpa using hi
  rw [List.getD_eq_getElem _ _ hlen, List.getElem_map]
  unfold config_valid at hv
  rw [List.getD_eq_getElem _ _ hi] at hv ⊢
  rw [hv, sub_zero]

theorem masked_pairs_filter_ge (freq : ℝ) (pop : List Config) :
    valid_count pop ≤
      ((masked_pairs freq pop).filter fun x => decide ((0:ℝ) ≤ x.2)).length := by
  unfold valid_count masked_pairs
  rw [List.filter_map, List.length_map]
  rw [← List.countP_eq_length_filter, ← List.countP_eq_length_filter]
  apply List.countP_mono_left
  intro i hi hdec
  have hvalid := of_decide_eq_true hdec
  have hirange := List.mem_range.mp hi
  have hfit := batch_fitness_of_valid freq pop i hirange hvalid
  show decide ((0:ℝ) ≤
    ((i, if config_valid (pop.getD i []) then
        (calculate_well_depth_batch freq pop).getD i 0
      else -1e10) : ℕ × ℝ).2) = true
  apply decide_eq_true
  dsimp only
  rw [if_pos hvalid, hfit]
  exact well_depth_nonneg freq _

/-- C6: every index the per-generation elite selection of
`run_constrained_evolutionary` returns belongs to a valid configuration, for
every population: invalid individuals, whose fitness is masked to the `-1e10`
sentinel before `topk`, are never selected as elites and hence never serve as
crossover parents.  (When at least `P // 5` individuals are valid, every valid
masked fitness is a nonnegative well depth, strictly above the sentinel; in
the fallback branch only indices of valid individuals are taken.) -/
theorem elite_selection_only_valid (freq : ℝ) (pop : List Config) (i : ℕ)
    (h : i ∈ elite_indices freq pop) :
    config_valid (pop.getD i []) := by
  unfold elite_indices at h
  by_cases hcase : pop.length / 5 ≤ valid_count pop
  · rw [if_pos hcase] at h
    obtain ⟨x, hxl, hxi, hx0⟩ :=
      top_k_good _ _ (le_trans hcase (masked_pairs_filter_ge freq pop)) i h
    obtain ⟨j, _, hxeq⟩ := List.mem_map.mp hxl
    by_cases hv : config_valid (pop.getD j [])
    · rw [← hxeq] at hxi
      dsimp only at hxi
      rw [← hxi]
      exact hv
    · rw [← hxeq] at hx0
      dsimp only at hx0
      rw [if_neg hv] at hx0
      norm_num at hx0
  · rw [if_neg hcase] at h
    have hmf := List.mem_filter.mp h
    exact of_decide_eq_true hmf.2

theorem single_origin_valid : config_valid [((0:ℝ), (0:ℝ))] := by
  unfold config_valid
  rw [config_penalty_eq_zero_iff]
  constructor
  · intro ij hij
    cases hij
  · have h0 : dist2 (((0:ℝ), (0:ℝ))) (((0:ℝ), (0:ℝ))) = 0 := dist2_self _
    unfold distances_from_center listMax
    simp only [List.map_cons, List.map_nil, h0, List.foldl]
    unfold MAX_SPREAD
    norm_num

theorem valid_count_replicate (n : ℕ) (c : Config) (hv : config_valid c) :
    valid_count (List.replicate n c) = n := by
  unfold valid_count
  have hgd : ∀ i ∈ List.range (List.replicate n c).length,
      (decide (config_valid ((List.replicate n c).getD i []))) = true := by
    intro i hi
    have hlen : i < (List.replicate n c).length := List.mem_range.mp hi
    rw [List.getD_eq_getElem _ _ hlen, List.getElem_replicate]
    exact decide_eq_true hv
  rw [List.filter_eq_self.mpr hgd, List.length_range, List.length_replicate]

theorem masked_pairs_replicate (freq : ℝ) (n : ℕ) (c : Config) (hv : config_valid c) :
    masked_pairs freq (List.replicate n c) =
      (List.range n).map fun i => (i, well_depth freq c) := by
  unfold masked_pairs
  rw [List.length_replicate]
  apply List.map_congr_left
  intro i hi
  have hlen : i < (List.replicate n c).length := by
    rw [List.length_replicate]
    exact List.mem_range.mp hi
  have hgd : (List.replicate n c).getD i [] = c := by
    rw [List.getD_eq_getElem _ _ hlen, List.getElem_replicate]
  rw [hgd, if_pos hv]
  have hfit := batch_fitness_of_valid freq (List.replicate n c) i hlen (by rw [hgd]; exact hv)
  rw [hfit, hgd]

theorem pick_max_const (a : ℕ × ℝ) (l : List (ℕ × ℝ)) (h : ∀ x ∈ l, x.2 = a.2) :
    (pick_max a l).1 = a := by
  induction l generalizing a with
  | nil => rfl
  | cons b t ih =>
    unfold pick_max
    have hb : b.2 = a.2 := h b (by simp)
    rw [if_neg (by rw [hb]; exact lt_irrefl _)]
    exact ih a fun x hx => h x (by simp [hx])

theorem elite_selection_only_valid_witness :
    (0 ∈ elite_indices 40000 (List.replicate 5 [((0:ℝ), (0:ℝ))])) ∧
    config_valid ((List.replicate 5 ([((0:ℝ), (0:ℝ))] : Config)).getD 0 []) := by
  have hv : config_valid [((0:ℝ), (0:ℝ))] := single_origin_valid
  have hmem : 0 ∈ elite_indices 40000 (List.replicate 5 [((0:ℝ), (0:ℝ))]) := by
    unfold elite_indices
    rw [valid_count_replicate 5 _ hv, List.length_replicate]
    rw [if_pos (by norm_num)]
    rw [masked_pairs_replicate 40000 5 _ hv]
    rw [show List.range 5 = [0, 1, 2, 3, 4] from rfl]
    simp only [List.map_cons, List.map_nil]
    rw [show (5:ℕ) / 5 = 1 from rfl]
    rw [show top_k 1
        [((0:ℕ), well_depth 40000 [((0:ℝ), (0:ℝ))]),
         (1, well_depth 40000 [((0:ℝ), (0:ℝ))]),
         (2, well_depth 40000 [((0:ℝ), (0:ℝ))]),
         (3, well_depth 40000 [((0:ℝ), (0:ℝ))]),
         (4, well_depth 40000 [((0:ℝ), (0:ℝ))])] =
      [(pick_max ((0:ℕ), well_depth 40000 [((0:ℝ), (0:ℝ))])
          [(1, well_depth 40000 [((0:ℝ), (0:ℝ))]),
           (2, well_depth 40000 [((0:ℝ), (0:ℝ))]),
           (3, well_depth 40000 [((0:ℝ), (0:ℝ))]),
           (4, well_depth 40000 [((0:ℝ), (0:ℝ))])]).1.1] from rfl]
    rw [pick_max_const _ _ (by
      intro x hx
      simp only [List.mem_cons, List.not_mem_nil, or_false] at hx
      rcases hx with rfl | rfl | rfl | rfl <;> rfl)]
    simp
  exact ⟨hmem, elite_selection_only_valid 40000 _ 0 hmem⟩

/-! ### Hard-shell driver lemmas (C7) -/

theorem zipWith_dist2_self (l : Config) :
    List.zipWith dist2 l l = List.replicate l.length 0 := by
  induction l with
  | nil => rfl
  | cons a t ih =>
    simp only [List.zipWith_cons_cons, List.length_cons, List.replicate_succ, ih, dist2_self]

theorem foldl_max_zero_replicate (m : ℕ) : (List.replicate m (0:ℝ)).foldl max 0 = 0 := by
  induction m with
  | zero => rfl
  | succ k ih =>
    show (List.replicate k (0:ℝ)).foldl max (max 0 0) = 0
    rw [max_self]
    exact ih

theorem max_deviation_self (ref : Config) : max_deviation ref ref = 0 := by
  unfold max_deviation
  rw [zipWith_dist2_self]
  cases hr : ref.length with
  | zero => rfl
  | succ m => exact foldl_max_zero_replicate m

theorem hardshell_step_preserves (ref : Config) (s : HardShellState) (cand : Config × ℝ)
    (hs : ¬ check_hard_shell_collision s.best_positions ∧
      ¬ check_perturbation_limit s.best_positions ref) :
    ¬ check_hard_shell_collision (hardshell_step ref s cand).best_positions ∧
      ¬ check_perturbation_limit (hardshell_step ref s cand).best_positions ref := by
  unfold hardshell_step
  by_cases h : ¬ check_hard_shell_collision cand.1 ∧ ¬ check_perturbation_limit cand.1 ref ∧
      s.best_score < cand.2
  · rw [if_pos h]
    exact ⟨h.1, h.2.1⟩
  · rw [if_neg h]
    exact hs

theorem foldl_hardshell_invariant (ref : Config) (cands : List (Config × ℝ))
    (s : HardShellState)
    (hs : ¬ check_hard_shell_collision s.best_positions ∧
      ¬ check_perturbation_limit s.best_positions ref) :
    ¬ check_hard_shell_collision (cands.foldl (hardshell_step ref) s).best_positions ∧
      ¬ check_perturbation_limit (cands.foldl (hardshell_step ref) s).best_positions ref := by
  induction cands generalizing s with
  | nil => exact hs
  | cons cand t ih =>
    rw [List.foldl_cons]
    exact ih _ (hardshell_step_preserves ref s cand hs)

/-- C7: the gradient-projection driver's separately tracked best configuration
is valid at every iteration: assuming the reference geometry itself has no
hard-shell collision, the best positions — initialized to the reference (whose
deviation from itself is `0 ≤ MAX_PERTURBATION`) and replaced only by a
candidate that passes both the collision check and the perturbation-limit
check — satisfy minimum spacing and maximum perturbation after every candidate
sequence, hence at every iteration and for the finally returned configuration
(every iteration's state is the fold over a prefix of the candidate
sequence). -/
theorem hardshell_best_always_valid (ref : Config) (init_score : ℝ)
    (cands : List (Config × ℝ)) (href : ¬ check_hard_shell_collision ref) :
    ¬ check_hard_shell_collision (optimize_from_fol ref init_score cands).best_positions ∧
      ¬ check_perturbation_limit (optimize_from_fol ref init_score cands).best_positions
        ref := by
  unfold optimize_from_fol
  apply foldl_hardshell_invariant
  refine ⟨href, ?_⟩
  show ¬ check_perturbation_limit ref ref
  unfold check_perturbation_limit
  rw [max_deviation_self]
  unfold HS_MAX_PERTURBATION
  norm_num

theorem hardshell_best_always_valid_witness :
    (¬ check_hard_shell_collision [((0:ℝ), (0:ℝ))]) ∧
    (¬ check_hard_shell_collision
        (optimize_from_fol [((0:ℝ), (0:ℝ))] 0 []).best_positions ∧
      ¬ check_perturbation_limit
        (optimize_from_fol [((0:ℝ), (0:ℝ))] 0 []).best_positions [((0:ℝ), (0:ℝ))]) := by
  have href : ¬ check_hard_shell_collision [((0:ℝ), (0:ℝ))] := by
    unfold check_hard_shell_collision
    rintro ⟨ij, hij, _⟩
    rw [show pair_indices ([((0:ℝ), (0:ℝ))] : Config).length = [] from rfl] at hij
    cases hij
  exact ⟨href, hardshell_best_always_valid _ 0 [] href⟩

end OpenAcousticLevitation
